import Mathlib

/-!
Shallow embedding of the Reed–Solomon codec in `src/main.py` (SageMath).

Representation choices, mirroring Sage:
* An element of GF(q) is a `ZMod q`.
* A univariate Sage polynomial over GF(q) is represented by its canonical
  coefficient list (degree-ordered, index `i` is the degree-`i` coefficient)
  with trailing zeros removed — exactly the data `.list()` returns.
  `PolynomialRing(gf, 'x')(coeff_list)` is modelled by `trim coeff_list`.
* A bivariate polynomial `Q(x, y) = Σ q_{i,j} x^i y^j` is represented by a
  list of rows, row `j` holding the x-coefficient list of `y^j`.
* The algebra layer the spec declares external (`Matrix.nullSpace`,
  bivariate factorization) is passed to the list decoder as function
  parameters; everything else is computed concretely.
-/

namespace RS

/-- Remove trailing zero coefficients: the canonical (Sage) form of a
polynomial's coefficient list. -/
def trim {q : ℕ} : List (ZMod q) → List (ZMod q)
  | [] => []
  | a :: rest =>
    match trim rest with
    | [] => if a = 0 then [] else [a]
    | r => a :: r

/-- Horner evaluation of a coefficient list at a point, `p(x)`. -/
def polyEval {q : ℕ} (p : List (ZMod q)) (x : ZMod q) : ZMod q :=
  p.foldr (fun c acc => c + x * acc) 0

/-- Coefficient-wise sum of two polynomials. -/
def polyAdd {q : ℕ} : List (ZMod q) → List (ZMod q) → List (ZMod q)
  | [], l => l
  | l, [] => l
  | a :: l, b :: m => (a + b) :: polyAdd l m

/-- Multiply every coefficient by a scalar. -/
def polyScale {q : ℕ} (c : ZMod q) (p : List (ZMod q)) : List (ZMod q) :=
  p.map (fun a => c * a)

/-- Coefficient-wise negation. -/
def polyNeg {q : ℕ} (p : List (ZMod q)) : List (ZMod q) :=
  p.map (fun a => -a)

/-- Coefficient-wise difference. -/
def polySub {q : ℕ} (p r : List (ZMod q)) : List (ZMod q) :=
  polyAdd p (polyNeg r)

/-- Product of two coefficient lists (polynomial multiplication). -/
def polyMul {q : ℕ} : List (ZMod q) → List (ZMod q) → List (ZMod q)
  | [], _ => []
  | a :: l, m => polyAdd (polyScale a m) (0 :: polyMul l m)

/-- Multiplicative inverse in GF(q), written as the Fermat power `a^(q−2)`
so that concrete instances evaluate by kernel reduction; for prime `q`
this is the field inverse `a⁻¹` that Sage's division uses (see
`finv_mul_cancel` below), and like it sends `0` to `0`. -/
def finv {q : ℕ} (a : ZMod q) : ZMod q :=
  a ^ (q - 2)

/-- Product `Π_z (x − z)` over a list of roots, as a coefficient list. -/
def prodLin {q : ℕ} (zs : List (ZMod q)) : List (ZMod q) :=
  zs.foldr (fun z acc => polyMul [-z, 1] acc) [1]

/-- One term of the Lagrange interpolation formula: for the point `p`,
`p.2 · (Π_{z ≠ p.1} (p.1 − z))⁻¹ · Π_{z ≠ p.1} (x − z)`, the products
ranging over the other nodes of `pts`. -/
def lagrange_basis {q : ℕ} (pts : List (ZMod q × ZMod q)) (p : ZMod q × ZMod q) :
    List (ZMod q) :=
  polyScale
    (p.2 * finv ((((pts.map Prod.fst).filter (fun z => z ≠ p.1)).map
      (fun z => p.1 - z)).prod))
    (prodLin ((pts.map Prod.fst).filter (fun z => z ≠ p.1)))

/-- Lagrange interpolation through a list of `(x, y)` points: the model of
Sage's `ring.lagrange_polynomial(points)` (the algebra-layer primitive the
source calls; for pairwise-distinct nodes the interpolant is unique, so the
textbook Lagrange formula used here agrees with Sage's divided-difference
computation up to trailing zero coefficients, which no caller observes). -/
def lagrange_polynomial {q : ℕ} (pts : List (ZMod q × ZMod q)) : List (ZMod q) :=
  (pts.map (lagrange_basis pts)).foldr polyAdd []

/-- The interpolation points `zip(alphas_k, msg)` built by `rs_encoder`
(`alphas_k = list(range(k))`, coerced into GF(q)). -/
def msg_points {q : ℕ} (msg : List (ZMod q)) : List (ZMod q × ZMod q) :=
  ((List.range msg.length).map (fun a : ℕ => (a : ZMod q))).zip msg

/-- The local variable `codeword` of `rs_encoder`: the interpolant of
`msg_points` evaluated at `0, 1, …, n−1`. -/
def rs_encoder_codeword {q : ℕ} (msg : List (ZMod q)) (n : ℕ) : List (ZMod q) :=
  (List.range n).map (fun a : ℕ => polyEval (lagrange_polynomial (msg_points msg)) (a : ZMod q))

/-- Model of `rs_encoder(msg, n, gf)` from `src/main.py` lines 17–40.  The source
returns `ring(codeword)`, a Sage polynomial, whose canonical coefficient
list is the evaluation list with trailing zeros removed. -/
def rs_encoder {q : ℕ} (msg : List (ZMod q)) (n : ℕ) : List (ZMod q) :=
  trim (rs_encoder_codeword msg n)

/-- Dot product of two coefficient vectors (shorter length wins). -/
def dot {q : ℕ} (a b : List (ZMod q)) : ZMod q :=
  (List.zipWith (fun x y => x * y) a b).sum

/-- Gaussian elimination on `m` unknowns over augmented rows `(coeffs, rhs)`.
Returns a particular solution (free unknowns set to `0`) of the system, or
`none` when it is inconsistent: the model of Sage's
`Matrix(...).solve_right(...)`, which raises when no solution exists.  (On
the inputs settled concretely below the solution is unique, so the choice
of particular solution cannot differ from Sage's.) -/
def gaussAux {q : ℕ} : ℕ → List (List (ZMod q) × ZMod q) → Option (List (ZMod q))
  | 0, rows => if rows.all (fun r => r.2 = 0) then some [] else none
  | m + 1, rows =>
    match rows.dropWhile (fun r => r.1.headI = 0) with
    | [] =>
      -- no pivot available in the first column: the unknown is free, set to 0
      (gaussAux m (rows.map (fun r => (r.1.tail, r.2)))).map (fun xs => 0 :: xs)
    | piv :: rest =>
      let pre := rows.takeWhile (fun r => r.1.headI = 0)
      let pc := piv.1.headI
      let pcoef := piv.1.tail.map (fun a => finv pc * a)
      let prhs := finv pc * piv.2
      let reduce := fun (r : List (ZMod q) × ZMod q) =>
        (List.zipWith (fun a b => a - r.1.headI * b) r.1.tail pcoef,
         r.2 - r.1.headI * prhs)
      match gaussAux m ((pre ++ rest).map reduce) with
      | none => none
      | some xs => some ((prhs - dot pcoef xs) :: xs)

/-- Solve `A·u = b` over GF(q): the model of `solve_right` in the decoder. -/
def gaussSolve {q : ℕ} (A : List (List (ZMod q))) (b : List (ZMod q)) :
    Option (List (ZMod q)) :=
  gaussAux A.headI.length (A.zip b)

/-- The `result_column` of `rs_decoder` (line 108):
`[-element * alpha^2 for alpha, element in enumerate(codeword)]` (the
source rounds through integer representatives, the identity on GF(q)). -/
def bw_result_column {q : ℕ} (cw : List (ZMod q)) : List (ZMod q) :=
  (List.range cw.length).map (fun α => -(cw.getD α 0 * (α : ZMod q) ^ 2))

/-- The `equations` matrix of `rs_decoder` (lines 111–121).  Entry `(i, j)`
is `codeword[i]` for `j = 0`, `codeword[i]·i` for `j = 1`, `q − 1 ≡ −1` for
`j = 2`, and `(q − i^(j−2) mod q) mod q ≡ −i^(j−2)` for `j ≥ 3` (again the
source computes integer representatives and maps them back into GF(q)). -/
def bw_equations {q : ℕ} (cw : List (ZMod q)) : List (List (ZMod q)) :=
  (List.range cw.length).map (fun i =>
    (List.range cw.length).map (fun j =>
      if j = 0 then cw.getD i 0
      else if j = 1 then cw.getD i 0 * (i : ZMod q)
      else if j = 2 then -1
      else -((i : ZMod q) ^ (j - 2))))

/-- Model of `error_coeffs = list(unknowns[:num_of_errors]) + [1]` (line 134): the
error-locator polynomial E. -/
def bwE {q : ℕ} (u : List (ZMod q)) (t : ℕ) : List (ZMod q) :=
  u.take t ++ [1]

/-- Model of `q_coeffs = list(unknowns[num_of_errors:])` (line 137): the polynomial Q. -/
def bwQ {q : ℕ} (u : List (ZMod q)) (t : ℕ) : List (ZMod q) :=
  u.drop t

/-- One-step-at-a-time polynomial remainder, fuelled (each step cancels the
leading coefficient of the running remainder against the divisor `B`). -/
def polyModAux {q : ℕ} (B : List (ZMod q)) : ℕ → List (ZMod q) → List (ZMod q)
  | 0, A => A
  | fuel + 1, A =>
    let A' := trim A
    if A'.length < B.length then A'
    else
      polyModAux B fuel
        (polySub A'
          (List.replicate (A'.length - B.length) 0 ++
            B.map (fun b => (A'.getLastD 0 * finv (B.getLastD 0)) * b)))

/-- Remainder of `A` modulo `B`: the model of Sage's `Q % E` (line 140).
`B` is trimmed first; in the decoder `B = E` always ends in the literal
coefficient `1`, so it is monic and nonzero. -/
def polyMod {q : ℕ} (A B : List (ZMod q)) : List (ZMod q) :=
  polyModAux (trim B) (A.length + 1) A

/-- Model of `correct_symbol_indices` (line 147): the received indices where the
error locator does not vanish. -/
def correct_symbol_indices {q : ℕ} (cw E : List (ZMod q)) : List ℕ :=
  (List.range cw.length).filter (fun α : ℕ => polyEval E (α : ZMod q) ≠ 0)

/-- Model of `rs_decoder(codeword, k, num_of_errors, gf)` from `src/main.py` lines
80–154 (Berlekamp–Welch): build and solve the linear system (`None` when
`solve_right` raises), split the solution into E and Q, require `E ∣ Q`
(`None` otherwise), interpolate through the indices where `E` does not
vanish, evaluate at `0..k−1`, and return that coefficient list as a Sage
polynomial (hence trimmed).  The quotient `F = Q // E` of line 141 is
computed by the source but never used afterwards, so it is not modelled. -/
def rs_decoder {q : ℕ} (cw : List (ZMod q)) (k t : ℕ) : Option (List (ZMod q)) :=
  match gaussSolve (bw_equations cw) (bw_result_column cw) with
  | none => none
  | some unknowns =>
    let E := bwE unknowns t
    if trim (polyMod (bwQ unknowns t) E) = [] then
      let idxs := correct_symbol_indices cw E
      let pts := (idxs.map (fun a : ℕ => (a : ZMod q))).zip (idxs.map (fun a : ℕ => cw.getD a 0))
      let interp := lagrange_polynomial pts
      some (trim ((List.range k).map (fun a : ℕ => polyEval interp (a : ZMod q))))
    else none

/-- Model of `get_factors_with_less_errors(factors, xs, ys, num_of_errors, k)` from
`src/main.py` lines 157–183.  A factor is skipped when
`factor.degree() > k` (degree of a Sage polynomial = trimmed length − 1,
so the test is `k + 1 < (trim factor).length`); otherwise its mismatches
against `zip(xs, ys)` are counted and it is kept when the count is at most
`num_of_errors`.  The source's early `break` once the running count
exceeds `num_of_errors` does not change which factors are kept. -/
def get_factors_with_less_errors {q : ℕ} (factors : List (List (ZMod q)))
    (xs ys : List (ZMod q)) (num_of_errors k : ℕ) : List (List (ZMod q)) :=
  factors.foldl (fun good_factors factor =>
    if k + 1 < (trim factor).length then good_factors
    else
      let current_errors := (xs.zip ys).countP (fun p => polyEval factor p.1 ≠ p.2)
      if current_errors ≤ num_of_errors then good_factors ++ [factor]
      else good_factors) []

/-- Computes `factor − y` for a bivariate coefficient-row list: subtract 1 from the
coefficient of `x^0 y^1`. -/
def biv_sub_y {q : ℕ} : List (List (ZMod q)) → List (List (ZMod q))
  | [] => [[], [-1]]
  | [r0] => [r0, [-1]]
  | r0 :: r1 :: rest => r0 :: polySub r1 [1] :: rest

/-- Coefficient-wise negation of a bivariate polynomial. -/
def biv_neg {q : ℕ} (f : List (List (ZMod q))) : List (List (ZMod q)) :=
  f.map polyNeg

/-- Sage's `is_univariate()`: at most one of the two variables occurs, i.e.
every monomial has y-degree 0 (only rows beyond row 0 vanish) or every
monomial has x-degree 0 (each row is a constant). -/
def biv_is_univariate {q : ℕ} (f : List (List (ZMod q))) : Bool :=
  ((f.drop 1).all fun row => (trim row).isEmpty) ||
    (f.all fun row => (trim (row.drop 1)).isEmpty)

/-- Sage's `univariate_polynomial()` on a univariate bivariate polynomial:
its coefficient list in the one variable that occurs. -/
def biv_univariate_polynomial {q : ℕ} (f : List (List (ZMod q))) : List (ZMod q) :=
  if (f.drop 1).all (fun row => (trim row).isEmpty) then f.headI
  else f.map (fun row => row.getD 0 0)

/-- Model of `get_p_from_factor(factor, ring)` from `src/main.py` lines 186–198:
when `factor − y` is univariate, return `y − factor` as a univariate
polynomial (the `P` of a factor `y − P(x)`); otherwise `None`. -/
def get_p_from_factor {q : ℕ} (f : List (List (ZMod q))) : Option (List (ZMod q)) :=
  if biv_is_univariate (biv_sub_y f) then
    some (biv_univariate_polynomial (biv_neg (biv_sub_y f)))
  else none

/-- Largest `m ≤ fuel` with `m · m ≤ n` (and `0` when none qualifies):
a structurally recursive integer square root helper. -/
def isqrtAux (n : ℕ) : ℕ → ℕ
  | 0 => 0
  | m + 1 => if (m + 1) * (m + 1) ≤ n then m + 1 else isqrtAux n m

/-- Integer square root `⌊√n⌋`, kernel-reducible; its floor-sqrt
characterisation is proved in `intSqrt_le` / `lt_intSqrt_succ` below. -/
def intSqrt (n : ℕ) : ℕ :=
  isqrtAux n n

/-- Degree parameter `D = int(sqrt(2 * k * n))` (line 203): `sqrt` of a Sage integer is
exact and `int` truncates, so this is `⌊√(2kn)⌋`. -/
def ldD (k n : ℕ) : ℕ :=
  intSqrt (2 * k * n)

/-- The list decoder's interpolation matrix (lines 205–213): one row per
received index `alpha`, one entry per pair `(j, i)` with `j ≤ D // k` and
`i ≤ D − k·j`, holding `alpha^i * y_coeff^j` where `y_coeff` is
`codeword[alpha]`, replaced by 1 when `codeword[alpha] = 0` and `j = 0`
(the source's guard against `0^0`). -/
def ldEquations {q : ℕ} (cw : List (ZMod q)) (k : ℕ) : List (List (ZMod q)) :=
  (List.range cw.length).map (fun α =>
    (List.range (ldD k cw.length / k + 1)).flatMap (fun j =>
      (List.range (ldD k cw.length - k * j + 1)).map (fun i =>
        let y_coeff : ZMod q :=
          if cw.getD α 0 = 0 ∧ j = 0 then 1 else cw.getD α 0
        ((α ^ i : ℕ) : ZMod q) * y_coeff ^ j)))

/-- The `qij` splitting loop (lines 218–223): row `j` of the bivariate
coefficient table takes the next `D − k·j + 1` entries of the kernel
vector; the running index of the source is the offset
`Σ_{j' < j} (D − k·j' + 1)`. -/
def ldSplit {q : ℕ} (unknowns : List (ZMod q)) (D k : ℕ) : List (List (ZMod q)) :=
  (List.range (D / k + 1)).map (fun j =>
    (List.range (D - k * j + 1)).map (fun i =>
      unknowns.getD ((List.range j).foldl (fun acc j' => acc + (D - k * j' + 1)) 0 + i) 0))

/-- Model of `rs_list_decoder(codeword, k, num_of_errors, GF)` from `src/main.py`
lines 201–256.  The two algebra-layer primitives the spec declares
external are parameters: `kernelBasis` models
`Matrix(GF, equations).right_kernel().matrix()` (a list of basis rows —
the source indexes `[0]`, raising `IndexError` when the basis is empty,
modelled as `Except.error`), and `factorize` models `Q.factor()` (the
list of irreducible factors, multiplicities and unit dropped exactly as
the source drops them).  `Except.ok none` models `return None` (line 241),
`Except.ok (some l)` models returning the list `l` of messages. -/
def rs_list_decoder {q : ℕ}
    (kernelBasis : List (List (ZMod q)) → List (List (ZMod q)))
    (factorize : List (List (ZMod q)) → List (List (List (ZMod q))))
    (cw : List (ZMod q)) (k t : ℕ) :
    Except String (Option (List (List (ZMod q)))) :=
  let n := cw.length
  let D := ldD k n
  let equations := ldEquations cw k
  match kernelBasis equations with
  | [] => Except.error "IndexError"
  | unknowns :: _ =>
    let Qb := ldSplit unknowns D k
    let factors_list := (factorize Qb).filterMap get_p_from_factor
    if factors_list.length = 0 then Except.ok none
    else
      let good := get_factors_with_less_errors factors_list
        ((List.range n).map (fun a : ℕ => (a : ZMod q))) cw t k
      Except.ok (some (good.map (fun f => (List.range k).map (fun a : ℕ => polyEval f (a : ZMod q)))))

/-- The monomial index set of the list decoder's interpolation system, as
the spec describes it: pairs `(a, b)` with `b ≤ D / k` and `a ≤ D − k·b`,
in the order the source's nested loops visit them. -/
def ldMonomials (D k : ℕ) : List (ℕ × ℕ) :=
  (List.range (D / k + 1)).flatMap (fun b =>
    (List.range (D - k * b + 1)).map (fun a => (a, b)))

/-- Proposition that `u` satisfies the linear system `rs_decoder` actually constructs:
every row of `bw_equations` dotted with `u` equals the matching entry of
`bw_result_column`. -/
def bwCodeSat {q : ℕ} (cw u : List (ZMod q)) : Prop :=
  ∀ i < cw.length,
    dot ((bw_equations cw).getD i []) u = (bw_result_column cw).getD i 0

/-- Proposition that `u` satisfies the system claim C4 describes for declared error bound
`t`: for every received index `i`, `Q(i) = codeword[i] · E(i)`, where `E`
is the monic degree-`t` polynomial built from the first `t` unknowns and
`Q` is built from the remaining ones. -/
def bwClaimSat {q : ℕ} (t : ℕ) (cw u : List (ZMod q)) : Prop :=
  ∀ i < cw.length,
    polyEval (bwQ u t) (i : ZMod q) = cw.getD i 0 * polyEval (bwE u t) (i : ZMod q)

instance bwCodeSat_decidable {q : ℕ} (cw u : List (ZMod q)) :
    Decidable (bwCodeSat cw u) :=
  Nat.decidableBallLT _ _

instance bwClaimSat_decidable {q : ℕ} (t : ℕ) (cw u : List (ZMod q)) :
    Decidable (bwClaimSat t cw u) :=
  Nat.decidableBallLT _ _

instance fact_prime_7 : Fact (Nat.Prime 7) :=
  ⟨by norm_num⟩

/-!  ### Helper lemmas  -/

theorem finv_mul_cancel {q : ℕ} [Fact (Nat.Prime q)] {a : ZMod q} (h : a ≠ 0) :
    a * finv a = 1 := by
  have hq : 2 ≤ q := (Fact.out : Nat.Prime q).two_le
  have h1 : a ^ (q - 1) = 1 := ZMod.pow_card_sub_one_eq_one h
  calc a * finv a = a ^ (1 + (q - 2)) := by rw [finv, pow_add, pow_one]
    _ = a ^ (q - 1) := by congr 1; omega
    _ = 1 := h1

theorem isqrtAux_le (n : ℕ) : ∀ f, isqrtAux n f * isqrtAux n f ≤ n
  | 0 => by simp [isqrtAux]
  | f + 1 => by
    rw [isqrtAux]
    split
    · assumption
    · exact isqrtAux_le n f

theorem le_isqrtAux (n : ℕ) : ∀ f m, m ≤ f → m * m ≤ n → m ≤ isqrtAux n f
  | 0, m, hm, _ => by simpa [isqrtAux] using hm
  | f + 1, m, hm, hmn => by
    rw [isqrtAux]
    split
    · exact hm
    · next hc =>
      have hmf : m ≤ f := by
        rcases Nat.lt_or_ge m (f + 1) with h | h
        · omega
        · exact absurd (le_antisymm hm h ▸ hmn) hc
      exact le_isqrtAux n f m hmf hmn

theorem intSqrt_le (n : ℕ) : intSqrt n * intSqrt n ≤ n :=
  isqrtAux_le n n

theorem lt_intSqrt_succ (n : ℕ) : n < (intSqrt n + 1) * (intSqrt n + 1) := by
  by_contra h
  push_neg at h
  have h1 : intSqrt n + 1 ≤ n :=
    le_trans (Nat.le_mul_of_pos_left _ (Nat.succ_pos _)) h
  have h2 := le_isqrtAux n n (intSqrt n + 1) h1 h
  have h3 : intSqrt n = isqrtAux n n := rfl
  omega

theorem polyEval_nil {q : ℕ} (x : ZMod q) : polyEval [] x = 0 := rfl

theorem polyEval_cons {q : ℕ} (a : ZMod q) (p : List (ZMod q)) (x : ZMod q) :
    polyEval (a :: p) x = a + x * polyEval p x := rfl

theorem polyEval_polyAdd {q : ℕ} (p r : List (ZMod q)) (x : ZMod q) :
    polyEval (polyAdd p r) x = polyEval p x + polyEval r x := by
  induction p generalizing r with
  | nil => simp [polyAdd, polyEval_nil]
  | cons a p ih =>
    cases r with
    | nil => simp [polyAdd, polyEval_nil]
    | cons b r =>
      simp only [polyAdd, polyEval_cons, ih]
      ring

theorem polyEval_polyScale {q : ℕ} (c : ZMod q) (p : List (ZMod q)) (x : ZMod q) :
    polyEval (polyScale c p) x = c * polyEval p x := by
  induction p with
  | nil => simp [polyScale, polyEval_nil]
  | cons a p ih =>
    simp only [polyScale, List.map_cons, polyEval_cons] at ih ⊢
    rw [ih]
    ring

theorem polyEval_polyMul {q : ℕ} (p r : List (ZMod q)) (x : ZMod q) :
    polyEval (polyMul p r) x = polyEval p x * polyEval r x := by
  induction p with
  | nil => simp [polyMul, polyEval_nil]
  | cons a p ih =>
    simp only [polyMul, polyEval_polyAdd, polyEval_polyScale, polyEval_cons, ih]
    ring

theorem polyEval_prodLin {q : ℕ} (zs : List (ZMod q)) (x : ZMod q) :
    polyEval (prodLin zs) x = (zs.map (fun z => x - z)).prod := by
  induction zs with
  | nil => simp [prodLin, polyEval]
  | cons z zs ih =>
    simp only [prodLin, List.foldr_cons, List.map_cons, List.prod_cons] at ih ⊢
    rw [polyEval_polyMul, ih, polyEval_cons, polyEval_cons, polyEval_nil]
    ring

theorem polyEval_foldr_polyAdd {q : ℕ} (l : List (List (ZMod q))) (x : ZMod q) :
    polyEval (l.foldr polyAdd []) x = (l.map (fun p => polyEval p x)).sum := by
  induction l with
  | nil => simp [polyEval_nil]
  | cons p l ih => simp [polyEval_polyAdd, ih]

theorem trim_eq_nil_getD {q : ℕ} : ∀ {l : List (ZMod q)}, trim l = [] → ∀ i, l.getD i 0 = 0
  | [], _, i => by simp
  | a :: rest, h, i => by
    rw [trim] at h
    rcases hr : trim rest with _ | ⟨b, r⟩
    · rw [hr] at h
      by_cases ha : a = 0
      · cases i with
        | zero => simpa using ha
        | succ i => exact trim_eq_nil_getD hr i
      · simp [ha] at h
    · rw [hr] at h
      simp at h

theorem trim_getD {q : ℕ} : ∀ (l : List (ZMod q)) (i : ℕ), (trim l).getD i 0 = l.getD i 0
  | [], i => by simp [trim]
  | a :: rest, i => by
    rw [trim]
    rcases hr : trim rest with _ | ⟨b, r⟩
    · by_cases ha : a = 0
      · simp only [ha, if_pos rfl]
        cases i with
        | zero => simp [ha]
        | succ i => simpa using (trim_eq_nil_getD hr i).symm
      · simp only [if_neg ha]
        cases i with
        | zero => simp
        | succ i => simpa using (trim_eq_nil_getD hr i).symm
    · cases i with
      | zero => simp
      | succ i =>
        have := trim_getD rest i
        rw [hr] at this
        simpa using this

theorem lagrange_basis_eval_self {q : ℕ} [Fact (Nat.Prime q)]
    (pts : List (ZMod q × ZMod q)) (r : ZMod q × ZMod q) :
    polyEval (lagrange_basis pts r) r.1 = r.2 := by
  rw [lagrange_basis, polyEval_polyScale, polyEval_prodLin]
  have hne0 :
      ((((pts.map Prod.fst).filter (fun z => z ≠ r.1)).map (fun z => r.1 - z)).prod) ≠ 0 := by
    apply List.prod_ne_zero
    intro h0
    obtain ⟨z, hz, hz0⟩ := List.mem_map.mp h0
    have hzne : z ≠ r.1 := by
      have := (List.mem_filter.mp hz).2
      simpa using this
    exact hzne (sub_eq_zero.mp hz0).symm
  calc r.2 * finv ((((pts.map Prod.fst).filter (fun z => z ≠ r.1)).map (fun z => r.1 - z)).prod) *
        (((pts.map Prod.fst).filter (fun z => z ≠ r.1)).map (fun z => r.1 - z)).prod
      = r.2 * ((((pts.map Prod.fst).filter (fun z => z ≠ r.1)).map (fun z => r.1 - z)).prod *
          finv ((((pts.map Prod.fst).filter (fun z => z ≠ r.1)).map (fun z => r.1 - z)).prod)) := by
        ring
    _ = r.2 * 1 := by rw [finv_mul_cancel hne0]
    _ = r.2 := mul_one _

theorem lagrange_basis_eval_ne {q : ℕ} (pts : List (ZMod q × ZMod q))
    (r : ZMod q × ZMod q) {x : ZMod q} (hx : x ∈ pts.map Prod.fst) (hne : x ≠ r.1) :
    polyEval (lagrange_basis pts r) x = 0 := by
  rw [lagrange_basis, polyEval_polyScale, polyEval_prodLin]
  have hmem : x ∈ (pts.map Prod.fst).filter (fun z => z ≠ r.1) := by
    rw [List.mem_filter]
    exact ⟨hx, by simpa using hne⟩
  have h0 : (0 : ZMod q) ∈ ((pts.map Prod.fst).filter (fun z => z ≠ r.1)).map (fun z => x - z) :=
    List.mem_map.mpr ⟨x, hmem, by simp⟩
  rw [List.prod_eq_zero h0, mul_zero]

/-- At each node of a list of points with pairwise-distinct first
components, the Lagrange interpolant takes the prescribed value. -/
theorem lagrange_eval_node {q : ℕ} [Fact (Nat.Prime q)]
    (pts : List (ZMod q × ZMod q)) (hnd : (pts.map Prod.fst).Nodup)
    (p : ZMod q × ZMod q) (hp : p ∈ pts) :
    polyEval (lagrange_polynomial pts) p.1 = p.2 := by
  obtain ⟨s, t, rfl⟩ := List.append_of_mem hp
  have hnd' := hnd
  rw [List.map_append, List.map_cons, List.nodup_append] at hnd'
  obtain ⟨hs, hpt_nodup, hdisj⟩ := hnd'
  have hps : ∀ r ∈ s, r.1 ≠ p.1 := by
    intro r hr heq
    exact hdisj (List.mem_map_of_mem Prod.fst hr) (by simp [heq])
  have hpt : ∀ r ∈ t, r.1 ≠ p.1 := by
    intro r hr heq
    have hnotin := (List.nodup_cons.mp hpt_nodup).1
    exact hnotin (heq ▸ List.mem_map_of_mem Prod.fst hr)
  have hp1mem : p.1 ∈ (s ++ p :: t).map Prod.fst :=
    List.mem_map_of_mem Prod.fst (by simp)
  rw [lagrange_polynomial, polyEval_foldr_polyAdd, List.map_map,
    List.map_append, List.map_cons, List.sum_append, List.sum_cons]
  have hsum_s : ((s.map ((fun pp => polyEval pp p.1) ∘ lagrange_basis (s ++ p :: t))).sum = 0) := by
    apply List.sum_eq_zero
    intro x hx
    obtain ⟨r, hr, rfl⟩ := List.mem_map.mp hx
    exact lagrange_basis_eval_ne _ r hp1mem (Ne.symm (hps r hr))
  have hsum_t : ((t.map ((fun pp => polyEval pp p.1) ∘ lagrange_basis (s ++ p :: t))).sum = 0) := by
    apply List.sum_eq_zero
    intro x hx
    obtain ⟨r, hr, rfl⟩ := List.mem_map.mp hx
    exact lagrange_basis_eval_ne _ r hp1mem (Ne.symm (hpt r hr))
  have hself : ((fun pp => polyEval pp p.1) ∘ lagrange_basis (s ++ p :: t)) p =
      p.2 := lagrange_basis_eval_self (s ++ p :: t) p
  rw [hsum_s, hsum_t, hself, zero_add, add_zero]

theorem getD_map_range {β : Type} (f : ℕ → β) (d : β) {n i : ℕ} (h : i < n) :
    ((List.range n).map f).getD i d = f i := by
  have hl : i < ((List.range n).map f).length := by
    rw [List.length_map, List.length_range]
    exact h
  rw [List.getD_eq_getElem _ d hl, List.getElem_map, List.getElem_range]

theorem msg_points_map_fst {q : ℕ} (msg : List (ZMod q)) :
    (msg_points msg).map Prod.fst = (List.range msg.length).map (fun a : ℕ => (a : ZMod q)) := by
  rw [msg_points]
  apply List.map_fst_zip
  rw [List.length_map, List.length_range]

theorem msg_points_nodup {q : ℕ} [NeZero q] (msg : List (ZMod q)) (h : msg.length ≤ q) :
    ((msg_points msg).map Prod.fst).Nodup := by
  rw [msg_points_map_fst]
  refine List.Nodup.map_on ?_ (List.nodup_range _)
  intro a ha b hb hab
  have ha' : a < q := lt_of_lt_of_le (List.mem_range.mp ha) h
  have hb' : b < q := lt_of_lt_of_le (List.mem_range.mp hb) h
  have hv := congrArg ZMod.val hab
  rwa [ZMod.val_cast_of_lt ha', ZMod.val_cast_of_lt hb'] at hv

theorem msg_points_mem {q : ℕ} (msg : List (ZMod q)) {i : ℕ} (hi : i < msg.length) :
    ((i : ZMod q), msg.getD i 0) ∈ msg_points msg := by
  have hz : i < (((List.range msg.length).map (fun a : ℕ => (a : ZMod q))).zip msg).length := by
    rw [List.length_zip, List.length_map, List.length_range, Nat.min_self]
    exact hi
  have h1 : (((List.range msg.length).map (fun a : ℕ => (a : ZMod q))).zip msg).get ⟨i, hz⟩ =
      ((i : ZMod q), msg.getD i 0) := by
    rw [List.get_eq_getElem, List.getElem_zip, List.getElem_map, List.getElem_range,
      List.getD_eq_getElem msg 0 hi]
  have h2 := List.get_mem _ i hz
  rw [h1] at h2
  exact h2

theorem rs_encoder_codeword_getD {q : ℕ} [Fact (Nat.Prime q)] (msg : List (ZMod q))
    (n i : ℕ) (hq : msg.length ≤ q) (hik : i < msg.length) (hin : i < n) :
    (rs_encoder_codeword msg n).getD i 0 = msg.getD i 0 := by
  haveI : NeZero q := ⟨(Fact.out : Nat.Prime q).ne_zero⟩
  rw [rs_encoder_codeword, getD_map_range _ _ hin]
  exact lagrange_eval_node (msg_points msg) (msg_points_nodup msg hq)
    ((i : ZMod q), msg.getD i 0) (msg_points_mem msg hik)

/-!  ### Claims C1, C2, C3, C9, C10 (encoder-side)  -/

/-- Claim C1, evaluation of the code at a failing input: with `q = 7`,
`msg = [5, 4, 0]`, `n = 4`, `t = 0 ≤ ⌊(n − k)/2⌋` and zero symbols
altered, the unique decoder applied to `encode(msg, n)` returns
`[5, 4, 3]`, not `msg`: the encoder returns a polynomial, its two trailing
zero evaluations are lost, and the decoder interpolates a length-2 word. -/
theorem C1_code_eval :
    rs_decoder (rs_encoder (q := 7) [5, 4, 0] 4) 3 0 = some [5, 4, 3] ∧
      (some [5, 4, 3] : Option (List (ZMod 7))) ≠ some [5, 4, 0] := by
  decide

/-- Claim C2, evaluation of the code at a failing input: with `q = 7`,
`msg = [6, 2, 0]`, `n = 4` and `t = 0`, the zero-error round trip fails:
`rs_decoder (rs_encoder msg 4) 3 0 = some [6, 2, 5] ≠ some msg`. -/
theorem C2_code_eval :
    rs_decoder (rs_encoder (q := 7) [6, 2, 0] 4) 3 0 = some [6, 2, 5] ∧
      (some [6, 2, 5] : Option (List (ZMod 7))) ≠ some [6, 2, 0] := by
  decide

/-- Claim C3, counterexample: for `msg = [1, 2, 3]` over GF(7) and
`n = 4`, the encoder's symbol at evaluation point 1 is 2 (the interpolant
through `(0,1), (1,2), (2,3)` is `1 + x`), while the coefficient-form
evaluation `Σ_j msg[j] · 1^j = 1 + 2 + 3 = 6` differs. -/
theorem C3_counterexample :
    (rs_encoder (q := 7) [1, 2, 3] 4).getD 1 0 = 2 ∧
      polyEval ([1, 2, 3] : List (ZMod 7)) 1 = 6 ∧
      (rs_encoder (q := 7) [1, 2, 3] 4).getD 1 0 ≠ polyEval ([1, 2, 3] : List (ZMod 7)) 1 := by
  decide

/-- Claim C3 (amended): the codeword symbol at evaluation point `i` is the
value at `i` of the Lagrange interpolant through the points
`(j, msg[j])`, `j < k` — the message entries are the interpolant's node
values, not its coefficients — so for `i < k` the symbol equals `msg[i]`;
the coefficient-form identity `Σ_j msg[j] · i^j` does not hold in
general. -/
theorem C3_amended {q : ℕ} [Fact (Nat.Prime q)] (msg : List (ZMod q)) (n : ℕ)
    (hq : msg.length ≤ q) :
    (∀ i < n, (rs_encoder_codeword msg n).getD i 0 =
      polyEval (lagrange_polynomial (msg_points msg)) (i : ZMod q)) ∧
    (∀ i, i < msg.length → i < n →
      (rs_encoder_codeword msg n).getD i 0 = msg.getD i 0) := by
  constructor
  · intro i hin
    rw [rs_encoder_codeword, getD_map_range _ _ hin]
  · intro i hik hin
    exact rs_encoder_codeword_getD msg n i hq hik hin

/-- Claim C3, witness: the amended theorem applied at `q = 7`,
`msg = [1, 2, 3]`, `n = 4`, `i = 1`. -/
theorem C3_amended_witness :
    (rs_encoder_codeword (q := 7) [1, 2, 3] 4).getD 1 0 =
      ([1, 2, 3] : List (ZMod 7)).getD 1 0 :=
  (C3_amended [1, 2, 3] 4 (by norm_num)).2 1 (by norm_num) (by norm_num)

/-- Claim C9, evaluation of the code at a failing input: for the valid
message `[0]` over GF(7) and target length `n = 2 > k = 1`, the encoder
returns the zero polynomial, whose coefficient sequence is empty — not an
ordered sequence of exactly 2 field elements. -/
theorem C9_code_eval :
    rs_encoder (q := 7) [0] 2 = [] ∧ (rs_encoder (q := 7) [0] 2).length ≠ 2 := by
  decide

/-- Claim C10: the codeword agrees with the message on the first `k`
positions — the symbol at evaluation point `i` (coefficient access into
the returned polynomial) equals `msg[i]` for every `i < k`, because the
encoder interpolates through the points `(i, msg[i])`.  The hypothesis
`msg.length ≤ q` makes the `k` interpolation nodes distinct in GF(q)
(with `k > q` Sage's `lagrange_polynomial` raises instead of encoding). -/
theorem C10_first_k_symbols {q : ℕ} [Fact (Nat.Prime q)] (msg : List (ZMod q)) (n : ℕ)
    (_h1 : 1 ≤ msg.length) (h2 : msg.length ≤ n) (hq : msg.length ≤ q) :
    ∀ i < msg.length, (rs_encoder msg n).getD i 0 = msg.getD i 0 := by
  intro i hi
  rw [rs_encoder, trim_getD]
  exact rs_encoder_codeword_getD msg n i hq hi (lt_of_lt_of_le hi h2)

/-- Claim C10, witness: the theorem applied at `q = 7`, `msg = [1, 2, 3]`,
`n = 4`, `i = 0`. -/
theorem C10_witness :
    (rs_encoder (q := 7) [1, 2, 3] 4).getD 0 0 = ([1, 2, 3] : List (ZMod 7)).getD 0 0 :=
  C10_first_k_symbols [1, 2, 3] 4 (by norm_num) (by norm_num) (by norm_num) 0 (by norm_num)

/-!  ### Claim C4: the shape of the Berlekamp–Welch linear system  -/

theorem dot_nil_right {q : ℕ} (a : List (ZMod q)) : dot a [] = 0 := by
  rw [dot, List.zipWith_nil_right]
  rfl

theorem dot_cons {q : ℕ} (a : ZMod q) (r : List (ZMod q)) (b : ZMod q)
    (s : List (ZMod q)) : dot (a :: r) (b :: s) = a * b + dot r s := by
  rw [dot, List.zipWith_cons_cons, List.sum_cons]
  rfl

theorem dot_pow_geom {q : ℕ} (x : ZMod q) :
    ∀ (c : ZMod q) (v : List (ZMod q)) (m : ℕ), v.length ≤ m →
      dot ((List.range m).map (fun j => c * x ^ j)) v = c * polyEval v x
  | c, [], m, _ => by
    rw [dot_nil_right, polyEval_nil, mul_zero]
  | c, a :: v, m, h => by
    cases m with
    | zero => simp at h
    | succ m' =>
      rw [List.range_succ_eq_map, List.map_cons, List.map_map, dot_cons]
      have hrw : ((fun j => c * x ^ j) ∘ Nat.succ) = fun j => (c * x) * x ^ j := by
        funext j
        simp only [Function.comp_apply, pow_succ]
        ring
      rw [hrw, dot_pow_geom x (c * x) v m' (Nat.le_of_succ_le_succ h), polyEval_cons]
      ring

/-- Row `i` of the system the decoder builds is, for every declared error
bound, the Berlekamp–Welch equation `Q(i) = codeword[i] · E(i)` for the
split at `t = 2` — the construction hard-codes an error-locator of degree
2. -/
theorem bw_row_iff {q : ℕ} (cw u : List (ZMod q)) (i : ℕ) (hi : i < cw.length)
    (hu : u.length = cw.length) (hn : 3 ≤ cw.length) :
    (dot ((bw_equations cw).getD i []) u = (bw_result_column cw).getD i 0) ↔
      polyEval (bwQ u 2) (i : ZMod q) =
        cw.getD i 0 * polyEval (bwE u 2) (i : ZMod q) := by
  obtain ⟨u0, u1, u2, v, rfl⟩ : ∃ a b c v, u = a :: b :: c :: v := by
    rcases u with _ | ⟨a, _ | ⟨b, _ | ⟨c, v⟩⟩⟩
    · rw [List.length_nil] at hu; omega
    · simp only [List.length_cons, List.length_nil] at hu; omega
    · simp only [List.length_cons, List.length_nil] at hu; omega
    · exact ⟨a, b, c, v, rfl⟩
  have hvlen : v.length = cw.length - 3 := by
    simp only [List.length_cons] at hu
    omega
  have hrow : (bw_equations cw).getD i [] =
      (List.range cw.length).map (fun j =>
        if j = 0 then cw.getD i 0
        else if j = 1 then cw.getD i 0 * (i : ZMod q)
        else if j = 2 then -1
        else -((i : ZMod q) ^ (j - 2))) := by
    rw [bw_equations, getD_map_range _ _ hi]
  have hrhs : (bw_result_column cw).getD i 0 = -(cw.getD i 0 * (i : ZMod q) ^ 2) := by
    rw [bw_result_column, getD_map_range _ _ hi]
  obtain ⟨m, hm⟩ : ∃ m, cw.length = 3 + m := ⟨cw.length - 3, by omega⟩
  rw [hrow, hrhs, hm, List.range_add, List.map_append, List.map_map]
  have hfirst : (List.range 3).map (fun j =>
      if j = 0 then cw.getD i 0
      else if j = 1 then cw.getD i 0 * (i : ZMod q)
      else if j = 2 then -1
      else -((i : ZMod q) ^ (j - 2))) =
      [cw.getD i 0, cw.getD i 0 * (i : ZMod q), -1] := by
    rfl
  have htail : (List.range m).map ((fun j =>
      if j = 0 then cw.getD i 0
      else if j = 1 then cw.getD i 0 * (i : ZMod q)
      else if j = 2 then -1
      else -((i : ZMod q) ^ (j - 2))) ∘ (fun x => 3 + x)) =
      (List.range m).map (fun j => (-(i : ZMod q)) * (i : ZMod q) ^ j) := by
    apply List.map_congr_left
    intro j _
    simp only [Function.comp_apply]
    rw [if_neg (by omega), if_neg (by omega), if_neg (by omega)]
    have h3 : 3 + j - 2 = j + 1 := by omega
    rw [h3, pow_succ]
    ring
  rw [hfirst, htail, List.cons_append, List.cons_append, List.cons_append,
    List.nil_append, dot_cons, dot_cons, dot_cons,
    dot_pow_geom (i : ZMod q) (-(i : ZMod q)) v m (by omega)]
  rw [bwQ, bwE]
  simp only [List.drop_succ_cons, List.drop_zero, List.take_succ_cons,
    List.take_zero, List.cons_append, List.nil_append, polyEval_cons, polyEval_nil]
  constructor
  · intro h
    linear_combination -h
  · intro h
    linear_combination -h

/-- Claim C4, counterexample: for the received word `[1, 1]` over GF(7)
and declared error bound `t = 0`, the vector `u = [1, 0]` satisfies the
system the claim describes (`Q(i) = codeword[i] · E(i)` with `E = 1`,
`Q = 1`), but does not satisfy the system the code constructs — the
code's matrix does not depend on `t` at all, so its system is not the
claimed one for `t ≠ 2`. -/
theorem C4_counterexample :
    bwClaimSat 0 ([1, 1] : List (ZMod 7)) [1, 0] ∧
      ¬ bwCodeSat ([1, 1] : List (ZMod 7)) [1, 0] := by
  decide

/-- Claim C4 (amended): the system the decoder constructs has `n` unknowns
and enforces, for every received index `i`, the Berlekamp–Welch equation
`Q(i) = codeword[i] · E(i)` for the split at `t = 2` — two low-order
coefficients of a monic degree-2 `E` and the `n − 2` coefficients of `Q` —
independently of the declared error bound `t`; only the later splitting of
the solution vector (lines 134–138) uses `t`, so the shape of the system
does not vary with `t`. -/
theorem C4_amended {q : ℕ} (cw u : List (ZMod q)) (hu : u.length = cw.length)
    (hn : 3 ≤ cw.length) : bwCodeSat cw u ↔ bwClaimSat 2 cw u := by
  unfold bwCodeSat bwClaimSat
  exact forall_congr' fun i => imp_congr_right fun hi => bw_row_iff cw u i hi hu hn

/-- Claim C4, witness: the amended theorem applied at `q = 7`,
`codeword = [1, 2, 3]`, `u = [0, 0, 0]`. -/
theorem C4_amended_witness :
    bwCodeSat ([1, 2, 3] : List (ZMod 7)) [0, 0, 0] ↔
      bwClaimSat 2 ([1, 2, 3] : List (ZMod 7)) [0, 0, 0] :=
  C4_amended [1, 2, 3] [0, 0, 0] rfl (by norm_num)

/-!  ### Claim C5: the candidate filter  -/

theorem gf_foldl_eq {q : ℕ} (xs ys : List (ZMod q)) (t k : ℕ) :
    ∀ (factors acc : List (List (ZMod q))),
      List.foldl (fun good_factors factor =>
        if k + 1 < (trim factor).length then good_factors
        else
          if ((xs.zip ys).countP (fun p => polyEval factor p.1 ≠ p.2)) ≤ t
          then good_factors ++ [factor] else good_factors) acc factors =
      acc ++ factors.filter (fun factor =>
        decide ((trim factor).length ≤ k + 1 ∧
          ((xs.zip ys).countP (fun p => polyEval factor p.1 ≠ p.2)) ≤ t))
  | [], acc => by simp
  | f :: fs, acc => by
    rw [List.foldl_cons, List.filter_cons]
    simp only [decide_eq_true_eq]
    by_cases h1 : k + 1 < (trim f).length
    · rw [if_pos h1, if_neg (fun hc => absurd h1 (Nat.not_lt.mpr hc.1)),
        gf_foldl_eq xs ys t k fs acc]
    · rw [if_neg h1]
      by_cases h2 : ((xs.zip ys).countP (fun p => polyEval f p.1 ≠ p.2)) ≤ t
      · rw [if_pos h2, if_pos ⟨Nat.not_lt.mp h1, h2⟩,
          gf_foldl_eq xs ys t k fs (acc ++ [f]), List.append_assoc,
          List.singleton_append]
      · rw [if_neg h2, if_neg (fun hc => absurd hc.2 h2),
          gf_foldl_eq xs ys t k fs acc]

/-- Claim C5, counterexample: with `k = 1`, domain `[0]`, received values
`[0]` and error budget `0`, the factor `x` (coefficient list `[0, 1]`,
degree `1 = k`) matches every received value, and the filter KEEPS it,
although the claim demands that every polynomial of degree `≥ k` be
discarded (`(trim f).length ≤ k` is `degree f < k`). -/
theorem C5_counterexample :
    get_factors_with_less_errors (q := 7) [[0, 1]] [0] [0] 0 1 = [[0, 1]] ∧
      ¬ ((trim ([0, 1] : List (ZMod 7))).length ≤ 1) := by
  decide

/-- Claim C5 (amended): the candidate filter returns exactly those
polynomials whose degree is at most `k` — the code's test is
`factor.degree() > k`, i.e. it keeps `(trim f).length ≤ k + 1` — and whose
mismatch count over `zip xs ys` is at most the error budget; polynomials
of degree `> k` (not `≥ k`) are discarded. -/
theorem C5_amended {q : ℕ} (factors : List (List (ZMod q)))
    (xs ys : List (ZMod q)) (t k : ℕ) :
    get_factors_with_less_errors factors xs ys t k =
      factors.filter (fun factor =>
        decide ((trim factor).length ≤ k + 1 ∧
          ((xs.zip ys).countP (fun p => polyEval factor p.1 ≠ p.2)) ≤ t)) := by
  have h := gf_foldl_eq xs ys t k factors []
  rw [List.nil_append] at h
  exact h

/-!  ### Claims C6, C7: failure signalling of the two decoders  -/

/-- Claim C6, counterexample: over GF(7) with received word `[1, 1]`,
`k = 1`, `t = 0`, the vector `[4, 1, 6, 2, 0, 1]` lies in the null space
of the actual interpolation matrix (first conjunct), the resulting
bivariate polynomial `Q = y² + 2y + 6x² + x + 4` is its own only factor
and has no `(y − P(x))` form (second conjunct), and the list decoder
then returns `None` (`Except.ok none`) — not an empty candidate list. -/
theorem C6_counterexample :
    (∀ row ∈ ldEquations ([1, 1] : List (ZMod 7)) 1, dot row [4, 1, 6, 2, 0, 1] = 0) ∧
      get_p_from_factor (ldSplit ([4, 1, 6, 2, 0, 1] : List (ZMod 7)) (ldD 1 2) 1) = none ∧
      rs_list_decoder (q := 7) (fun _ => [[4, 1, 6, 2, 0, 1]]) (fun p => [p])
        [1, 1] 1 0 = Except.ok none :=
  ⟨by decide, by decide, rfl⟩

/-- Claim C6 (amended): the degenerate and no-candidate outcomes of the
list decoder are not reported as an empty candidate list: when the kernel
basis is empty the source raises `IndexError` (line 216), and when
factorization yields no factor of the form `y − P(x)` the source returns
`None` (lines 240–241), a distinct non-list value; only when candidates
exist and are all filtered out does it return an empty list. -/
theorem C6_amended {q : ℕ}
    (kernelBasis : List (List (ZMod q)) → List (List (ZMod q)))
    (factorize : List (List (ZMod q)) → List (List (List (ZMod q))))
    (cw : List (ZMod q)) (k t : ℕ) :
    (kernelBasis (ldEquations cw k) = [] →
      rs_list_decoder kernelBasis factorize cw k t = Except.error "IndexError") ∧
    (∀ v rest, kernelBasis (ldEquations cw k) = v :: rest →
      (factorize (ldSplit v (ldD k cw.length) k)).filterMap get_p_from_factor = [] →
      rs_list_decoder kernelBasis factorize cw k t = Except.ok none) := by
  constructor
  · intro h
    unfold rs_list_decoder
    simp only [h]
  · intro v rest hv hf
    unfold rs_list_decoder
    simp only [hv, hf, List.length_nil, if_pos]

/-- Claim C6, witness: the amended theorem applied to a kernel oracle
returning no basis vector, over GF(7) with received word `[1, 1]`. -/
theorem C6_amended_witness :
    rs_list_decoder (q := 7) (fun _ => []) (fun p => [p]) [1, 1] 1 0 =
      Except.error "IndexError" :=
  (C6_amended (fun _ => []) (fun p => [p]) [1, 1] 1 0).1 rfl

/-- Claim C7, counterexample: for the received word `[1, 6, 4]` over
GF(7) with `k = 3` and `t = 1`, the linear system has the unique solution
`[6, 1, 6]`, the error locator `E = x + 6` vanishes at index 1, and only
2 < k = 3 positions survive the filtering — yet the decoder does not fail
with any distinct signal: it interpolates the under-determined polynomial
through the two surviving points and returns the message `[1, 6, 4]`. -/
theorem C7_counterexample :
    gaussSolve (bw_equations ([1, 6, 4] : List (ZMod 7)))
        (bw_result_column [1, 6, 4]) = some [6, 1, 6] ∧
      (correct_symbol_indices ([1, 6, 4] : List (ZMod 7)) (bwE [6, 1, 6] 1)).length < 3 ∧
      rs_decoder ([1, 6, 4] : List (ZMod 7)) 3 1 = some [1, 6, 4] := by
  decide

/-- Claim C7 (amended): the unique decoder has no
`InsufficientCorrectSymbols` signal and performs no minimum-survivor
check: whenever the linear system is solvable and the extracted `E`
divides `Q`, the decoder returns `some` message, regardless of how many
positions survive error-locator filtering — its only failure outcomes are
the unsolvable system and the failed divisibility check. -/
theorem C7_amended {q : ℕ} (cw : List (ZMod q)) (k t : ℕ) (u : List (ZMod q))
    (h1 : gaussSolve (bw_equations cw) (bw_result_column cw) = some u)
    (h2 : trim (polyMod (bwQ u t) (bwE u t)) = []) :
    (rs_decoder cw k t).isSome = true := by
  unfold rs_decoder
  rw [h1]
  simp only [h2, if_pos, Option.isSome_some]

/-- Claim C7, witness: the amended theorem applied at `q = 7`,
`codeword = [2, 3]`, `k = 1`, `t = 0`, solution vector `[0, 6]`. -/
theorem C7_amended_witness :
    (rs_decoder ([2, 3] : List (ZMod 7)) 1 0).isSome = true :=
  C7_amended [2, 3] 1 0 [0, 6] (by decide) (by decide)

/-!  ### Claim C8: the list decoder's interpolation system  -/

/-- Claim C8: the list decoder chooses `D = ⌊√(2·k·n)⌋` (characterised by
`D² ≤ 2kn < (D+1)²`) and builds one row per received point `(α,
codeword[α])` with one entry per monomial `x^a y^b`, `b ≤ D / k`,
`a ≤ D − k·b`, holding `α^a · codeword[α]^b` with the convention
`0^0 = 1` — so a received value of 0 contributes `α^a · 1` to every
`y^0` monomial, which is what the source's `y_coeff` guard computes. -/
theorem C8_system_shape {q : ℕ} (cw : List (ZMod q)) (k : ℕ) :
    ldEquations cw k =
      (List.range cw.length).map (fun α : ℕ =>
        (ldMonomials (ldD k cw.length) k).map
          (fun m => (α : ZMod q) ^ m.1 * (cw.getD α 0) ^ m.2)) ∧
      ldD k cw.length * ldD k cw.length ≤ 2 * k * cw.length ∧
      2 * k * cw.length < (ldD k cw.length + 1) * (ldD k cw.length + 1) := by
  refine ⟨?_, intSqrt_le _, lt_intSqrt_succ _⟩
  rw [ldEquations, ldMonomials]
  apply List.map_congr_left
  intro α _
  rw [List.map_flatMap, List.flatMap_def, List.flatMap_def]
  apply congrArg List.flatten
  apply List.map_congr_left
  intro j _
  rw [List.map_map]
  apply List.map_congr_left
  intro i _
  simp only [Function.comp_apply]
  by_cases h : cw.getD α 0 = 0 ∧ j = 0
  · rw [if_pos h, h.2]
    simp [Nat.cast_pow, h.1]
  · rw [if_neg h]
    simp [Nat.cast_pow]

end RS
